import Mathlib

/-!
Verification of the reflective protobuf codec (encoder, decoder, field
resolver) against its natural-language specification.

Bytes are modelled as natural numbers (< 256 where it matters), byte
strings as `List Nat`.  Machine integers are `Nat`/`Int` with explicit
`% 2^w` where the Go code truncates or reinterprets.  Functions that can
fail (Go panics / returned errors) produce `Option`/`Except`.  All
definitions are executable by kernel reduction (explicit fuel instead of
well-founded recursion) so concrete scenarios evaluate with `decide`/`rfl`.
-/

namespace Protobuf

/-! ## Wire primitives (google.golang.org/protobuf/encoding/protowire)

`AppendVarint` writes little-endian base-128 groups, 7 data bits per byte,
high bit = continuation.  `ConsumeVarint` reads at most 10 bytes and the
10th byte may only be 0 or 1 (values are < 2^64).
-/

/-- Go `protowire.AppendVarint`, with fuel for structural recursion.
The fuel is always sufficient when `fuel ≥ v`. -/
def uvarintF : Nat → Nat → List Nat
  | 0, v => [v % 128]
  | fuel + 1, v => if v < 128 then [v] else (v % 128 + 128) :: uvarintF fuel (v / 128)

/-- Go `protowire.AppendVarint`: little-endian base-128 varint encoding. -/
def uvarint (v : Nat) : List Nat := uvarintF v v

/-- Go `protowire.ConsumeVarint` worker: `r` bytes may still be read
(`r = 1` means the current byte is the 10th and must be 0 or 1),
`mult` is `128 ^ (bytes already read)`, `acc` the value so far. -/
def cvAux : Nat → Nat → Nat → List Nat → Option (Nat × List Nat)
  | _, _, _, [] => none
  | r, mult, acc, b :: rest =>
    if b < 128 then
      if r ≤ 1 && 1 < b then none else some (acc + b * mult, rest)
    else
      if r ≤ 1 then none
      else cvAux (r - 1) (mult * 128) (acc + (b - 128) * mult) rest

/-- Go `protowire.ConsumeVarint`: parse a varint (at most 10 bytes),
returning the value and the unconsumed tail. -/
def consumeVarint (buf : List Nat) : Option (Nat × List Nat) :=
  cvAux 10 1 0 buf

/-- Go `protowire.AppendFixed32` / `AppendFixed64`: `k` little-endian bytes. -/
def leBytes : Nat → Nat → List Nat
  | 0, _ => []
  | k + 1, v => v % 256 :: leBytes k (v / 256)

/-- Value of a little-endian byte list. -/
def leVal : List Nat → Nat
  | [] => 0
  | b :: rest => b + 256 * leVal rest

/-- Go `protowire.ConsumeFixed32` / `ConsumeFixed64`: read exactly `k` bytes. -/
def consumeFixed (k : Nat) (buf : List Nat) : Option (Nat × List Nat) :=
  if k ≤ buf.length then some (leVal (buf.take k), buf.drop k) else none

/-- Go `encoder.keyTag`: `protowire.EncodeTag` is `num << 3 | wiretype`,
written as a varint. -/
def keyTag (num wt : Nat) : List Nat := uvarint (num * 8 + wt)

/-- Go `protowire.ConsumeTag`: a varint split into field number and wire
type.  `DecodeTag` truncates `v >> 3` to a signed 32-bit `Number`, and
numbers below `MinValidNumber` (1) — zero, or negative after truncation
(here: `2^31 ≤ num`) — are rejected. -/
def consumeTag (buf : List Nat) : Option (Nat × Nat × List Nat) :=
  match consumeVarint buf with
  | none => none
  | some (v, rest) =>
    let num := v / 8 % 2 ^ 32
    if num = 0 ∨ 2 ^ 31 ≤ num then none else some (num, v % 8, rest)

/-- A Go byte slice as the decoder sees it: the visible `data`
(`len`) and the total `cap` of the backing array reachable through it. -/
structure BSlice where
  data : List Nat
  cap : Nat
deriving DecidableEq, Repr

/-- Go `protowire.ConsumeBytes`: read a varint length `m`, then `m` payload
bytes.  The returned slice is resliced out of the input buffer, so its
capacity extends to the end of the buffer (`rest.length`). -/
def consumeBytesS (buf : List Nat) : Option (BSlice × List Nat) :=
  match consumeVarint buf with
  | none => none
  | some (m, rest) =>
    if m ≤ rest.length then some (⟨rest.take m, rest.length⟩, rest.drop m) else none

/-- The three-index reslice `vb[:len(vb):len(vb)]` in `decoder.value`:
capacity is clamped down to the length. -/
def resliceFull (s : BSlice) : BSlice := ⟨s.data, s.data.length⟩

/-- Go `decoder.value`, `BytesType` branch: `ConsumeBytes` followed by the
capacity-clamping reslice. -/
def decodeBytesField (buf : List Nat) : Option (BSlice × List Nat) :=
  match consumeBytesS buf with
  | none => none
  | some (s, rem) => some (resliceFull s, rem)

/-- Whether a Go `append` to this slice would write into the shared backing
array (it does exactly when there is spare capacity behind the length). -/
def appendShares (s : BSlice) : Bool := s.data.length < s.cap

/-! ## Field resolver (`ProtoFields`, `innerFieldIndexes`)

A Go struct type is modelled up to what the resolver inspects: each field
carries its parsed `protobuf` tag (`tagId = 0` means no numeric override,
mirroring `ParseTag`'s zero default), an optional tag-defined name, the
`Anonymous` flag, and its type.  Non-struct field types are `prim`.
-/

mutual
inductive GoType where
  | prim
  | ptr (t : GoType)
  | strukt (fs : GoFields)
deriving DecidableEq, Repr

inductive GoFields where
  | fnil
  | fcons (tagId : Nat) (tagName : String) (anon : Bool) (t : GoType) (rest : GoFields)
deriving DecidableEq, Repr
end

/-- One resolved field entry (`ProtoField`): wire number, tag-defined name
and the member-access path (`Index`). -/
structure PField where
  id : Nat
  name : String
  index : List Nat
deriving DecidableEq, Repr

/-- Prepend the embedding member's access step (Go:
`inner.Index = append([]int{i}, inner.Index...)`). -/
def prependIdx (i : Nat) (f : PField) : PField := ⟨f.id, f.name, i :: f.index⟩

mutual
/-- Go `innerFieldIndexes`: walk the members with a running counter.
`none` models the `reflect` panic when an anonymous member is not a struct
(or pointer to one). -/
def innerFieldIndexes : Nat → GoType → Option (Nat × List PField)
  | id, .ptr t => innerFieldIndexes id t
  | _, .prim => none
  | id, .strukt fs => fieldWalk id 0 fs

/-- The loop body of `innerFieldIndexes`: `id` is the running counter,
`i` the declaration position of the next member. -/
def fieldWalk : Nat → Nat → GoFields → Option (Nat × List PField)
  | id, _, .fnil => some (id, [])
  | id, i, .fcons tagId tagName anon t rest =>
    let id2 := if tagId ≠ 0 then tagId else id + 1
    if anon then
      match innerFieldIndexes (id2 - 1) t with
      | none => none
      | some (id3, inner) =>
        match fieldWalk id3 (i + 1) rest with
        | none => none
        | some (id4, out) => some (id4, inner.map (prependIdx i) ++ out)
    else
      match fieldWalk id2 (i + 1) rest with
      | none => none
      | some (id4, out) => some (id4, ⟨id2, tagName, [i]⟩ :: out)
end

/-- The duplicate scan in `ProtoFields` (the `seen` map): `true` iff some
field number occurs twice. -/
def hasDup : List Nat → Bool
  | [] => false
  | x :: xs => xs.contains x || hasDup xs

/-- Go `ProtoFields`: resolve a type's field entries.  `none` models the
fatal panic (duplicate protobuf ID, or reflection failure).  The Go
function memoizes the successful result per type under a lock; the panic
happens before anything is cached, so every call recomputes and fails the
same way — a pure function models both the memoized and the failing path. -/
def ProtoFields (t : GoType) : Option (List PField) :=
  match innerFieldIndexes 0 t with
  | none => none
  | some (_, idx) => if hasDup (idx.map (·.id)) then none else some idx

/-! ## The supported value universe

A deep embedding of the Go values the reflective engine handles, covering
booleans, 64-bit signed and unsigned integers (varint wire encodings),
byte slices, strings, optional (pointer) fields and nested structs.  A
`MsgKind` is a struct type as the codec sees it after field resolution:
the fields in declaration order, each with its resolved wire number.
A `MsgVal` carries the corresponding field values (the wire number is
repeated in the value so encoding, which walks the resolved entries, is
definable by recursion on the value). -/

mutual
inductive Kind where
  | kBool
  | kInt
  | kUInt
  | kBytes
  | kStr
  | kPtr (k : Kind)
  | kMsg (fs : MsgKind)
deriving DecidableEq, Repr

inductive MsgKind where
  | mnil
  | mcons (num : Nat) (k : Kind) (rest : MsgKind)
deriving DecidableEq, Repr
end

mutual
inductive Value where
  | vBool (b : Bool)
  | vInt (i : Int)
  | vUInt (n : Nat)
  | vBytes (bs : List Nat)
  | vStr (bs : List Nat)
  | vPtrNone
  | vPtrSome (v : Value)
  | vMsg (m : MsgVal)
deriving DecidableEq, Repr

inductive MsgVal where
  | vnil
  | vcons (num : Nat) (v : Value) (rest : MsgVal)
deriving DecidableEq, Repr
end

/-- Two's-complement bit pattern of a signed 64-bit value, as unsigned
(Go `uint64(v)` for `v : int64`). -/
def toU64 (i : Int) : Nat := (i % (2 ^ 64 : Int)).toNat

/-- Sign-extension: reinterpret the low `w` bits of `v` as a `w`-bit
two's-complement signed value (Go `int64(v)` for `w = 64`,
`int64(int32(v))` for `w = 32`). -/
def sExt (w : Nat) (v : Nat) : Int :=
  if v % 2 ^ w < 2 ^ (w - 1) then (v % 2 ^ w : Nat) else (v % 2 ^ w : Nat) - 2 ^ w

/-- Does this field encode to nothing?  Go's encoder emits nothing for a
nil pointer, recursing through non-nil pointers (`encoder.value`,
`reflect.Ptr` case). -/
def isNilish : Value → Bool
  | .vPtrNone => true
  | .vPtrSome v => isNilish v
  | _ => false

/-- Wire type the encoder uses for this value (`protowire`: 0 = varint,
1 = 64-bit fixed, 2 = length-delimited, 5 = 32-bit fixed). -/
def wireOf : Value → Nat
  | .vBool _ | .vInt _ | .vUInt _ => 0
  | .vBytes _ | .vStr _ | .vMsg _ => 2
  | .vPtrNone => 0
  | .vPtrSome v => wireOf v

mutual
/-- The wire payload of one field value, mirroring `encoder.value`:
bool → varint 0/1; signed int → varint of the two's-complement pattern
(`encoder.svarint`, no zigzag); unsigned int → varint; bytes/string →
length-prefixed raw bytes; nested struct → length-prefixed recursively
encoded message; pointers encode their pointee. -/
def encPayload : Value → List Nat
  | .vBool b => uvarint (if b then 1 else 0)
  | .vInt i => uvarint (toU64 i)
  | .vUInt n => uvarint n
  | .vBytes bs => uvarint bs.length ++ bs
  | .vStr bs => uvarint bs.length ++ bs
  | .vPtrNone => []
  | .vPtrSome v => encPayload v
  | .vMsg m => uvarint (encMsgV m).length ++ encMsgV m

/-- Go `encoder.message`: encode all fields in declaration order, each as
tag then payload. -/
def encMsgV : MsgVal → List Nat
  | .vnil => []
  | .vcons num v rest =>
    (if isNilish v then [] else keyTag num (wireOf v) ++ encPayload v) ++ encMsgV rest
end

/-- Go `encoder.value`: one field under its wire number — nothing for an
unset pointer, otherwise tag followed by payload. -/
def encValue (num : Nat) (v : Value) : List Nat :=
  if isNilish v then [] else keyTag num (wireOf v) ++ encPayload v

/-- The public `Encode` restricted to the supported universe: the concatenated field
encodings of the struct (`encoder.message` on the pointee). -/
def Encode (m : MsgVal) : List Nat := encMsgV m

/-! ### Typing, zero values and well-formedness -/

mutual
/-- Typing: `v` is a value of Go type `k`: shapes match, machine integers are in
range (`int64`/`uint64`), byte/string contents are bytes and slice
lengths fit the wire's 64-bit length prefix. -/
def typedV : Kind → Value → Bool
  | .kBool, .vBool _ => true
  | .kInt, .vInt i => decide (-(2 ^ 63) ≤ i) && decide (i < 2 ^ 63)
  | .kUInt, .vUInt n => decide (n < 2 ^ 64)
  | .kBytes, .vBytes bs => decide (bs.length < 2 ^ 64) && bs.all (· < 256)
  | .kStr, .vStr bs => decide (bs.length < 2 ^ 64) && bs.all (· < 256)
  | .kPtr _, .vPtrNone => true
  | .kPtr k, .vPtrSome v => typedV k v
  | .kMsg fs, .vMsg m => typedM fs m
  | _, _ => false

/-- Field-wise typing of a struct value against its resolved kind;
also requires the wire numbers recorded in the value to be the
resolved ones. -/
def typedM : MsgKind → MsgVal → Bool
  | .mnil, .vnil => true
  | .mcons num k krest, .vcons num' v vrest =>
    decide (num = num') && typedV k v && typedM krest vrest
  | _, _ => false
end

mutual
/-- The Go zero value of a kind (`reflect.Zero`). -/
def zeroV : Kind → Value
  | .kBool => .vBool false
  | .kInt => .vInt 0
  | .kUInt => .vUInt 0
  | .kBytes => .vBytes []
  | .kStr => .vStr []
  | .kPtr _ => .vPtrNone
  | .kMsg fs => .vMsg (zeroM fs)

/-- Zero value of every field: the decoder's initial zeroing loop
(`decoder.message` zeroes every settable non-interface field). -/
def zeroM : MsgKind → MsgVal
  | .mnil => .vnil
  | .mcons num k rest => .vcons num (zeroV k) (zeroM rest)
end

/-- The resolved field numbers of a struct kind, in declaration order. -/
def numsOf : MsgKind → List Nat
  | .mnil => []
  | .mcons num _ rest => num :: numsOf rest

/-- Field numbers strictly above `lo` and strictly ascending. -/
def ascFrom : Nat → MsgKind → Bool
  | _, .mnil => true
  | lo, .mcons num _ rest => decide (lo < num) && ascFrom num rest

/-- All field numbers below the protobuf maximum `2^29`. -/
def numsBelow (fs : MsgKind) : Bool := (numsOf fs).all (· < 2 ^ 29)

mutual
/-- Structural well-formedness of a kind: nested structs have valid,
strictly ascending field numbers, and a pointer's pointee is not itself
a pointer (Go supports `**T` fields, but an inner nil pointer encodes to
nothing and so is not round-trippable). -/
def wfKind : Kind → Bool
  | .kPtr (.kPtr _) => false
  | .kPtr k => wfKind k
  | .kMsg fs => ascFrom 0 fs && numsBelow fs && wfFields fs
  | _ => true

def wfFields : MsgKind → Bool
  | .mnil => true
  | .mcons _ k rest => wfKind k && wfFields rest
end

/-- Well-formed top-level struct kind. -/
def wfMsg (fs : MsgKind) : Bool := ascFrom 0 fs && numsBelow fs && wfFields fs

mutual
/-- Length bound for the wire's varint length prefixes: every nested
message body (and the top level, for uniformity) encodes to fewer than
`2^64` bytes — automatic for values that exist in a Go process. -/
def encOkV : Value → Bool
  | .vMsg m => decide ((encMsgV m).length < 2 ^ 64) && encOkM m
  | .vPtrSome v => encOkV v
  | _ => true

def encOkM : MsgVal → Bool
  | .vnil => true
  | .vcons _ v rest => encOkV v && encOkM rest
end

/-! ### The decoder -/

/-- Number of fields. -/
def MsgKind.size : MsgKind → Nat
  | .mnil => 0
  | .mcons _ _ rest => rest.size + 1

/-- The `i`-th resolved entry (number, kind). -/
def MsgKind.nth : MsgKind → Nat → Option (Nat × Kind)
  | .mnil, _ => none
  | .mcons num k _, 0 => some (num, k)
  | .mcons _ _ rest, i + 1 => rest.nth i

/-- Concatenation of field lists. -/
def MsgKind.app : MsgKind → MsgKind → MsgKind
  | .mnil, b => b
  | .mcons num k rest, b => .mcons num k (rest.app b)

def MsgVal.size : MsgVal → Nat
  | .vnil => 0
  | .vcons _ _ rest => rest.size + 1

/-- The `i`-th field value. -/
def MsgVal.get : MsgVal → Nat → Option Value
  | .vnil, _ => none
  | .vcons _ v _, 0 => some v
  | .vcons _ _ rest, i + 1 => rest.get i

/-- Replace the `i`-th field value. -/
def MsgVal.set : MsgVal → Nat → Value → MsgVal
  | .vnil, _, _ => .vnil
  | .vcons num _ rest, 0, x => .vcons num x rest
  | .vcons num v rest, i + 1, x => .vcons num v (rest.set i x)

def MsgVal.app : MsgVal → MsgVal → MsgVal
  | .vnil, b => b
  | .vcons num v rest, b => .vcons num v (rest.app b)

/-- The decode loop's cursor advance
(`for fieldi < len(fields) && fields[fieldi].ID < fieldnum { fieldi++ }`),
with fuel (`fs.size` always suffices). -/
def advanceF : Nat → MsgKind → Nat → Nat → Nat
  | 0, _, i, _ => i
  | fuel + 1, fs, i, num =>
    match fs.nth i with
    | some (n, _) => if n < num then advanceF fuel fs (i + 1) num else i
    | none => i

def advance (fs : MsgKind) (i num : Nat) : Nat := advanceF fs.size fs i num

/-- Go `decoder.decodeSignedInt`: a signed destination accepts varint,
fixed32 (sign-extended from 32 bits) and fixed64 payloads, bit-pattern
reinterpreted — no zigzag. -/
def decodeSignedInt (wt : Nat) (v : Nat) : Option Int :=
  match wt with
  | 0 => some (sExt 64 v)
  | 5 => some (sExt 32 v)
  | 1 => some (sExt 64 v)
  | _ => none

/-- Go `decoder.value`'s wire-type switch: break the payload out of the
buffer.  Returns the numeric payload `v` (varint/fixed), the byte payload
`vb` (length-delimited, capacity clamped), and the unconsumed tail. -/
def decPayload (wt : Nat) (buf : List Nat) : Option (Nat × List Nat × List Nat) :=
  match wt with
  | 0 =>
    match consumeVarint buf with
    | none => none
    | some (v, rem) => some (v, [], rem)
  | 5 =>
    match consumeFixed 4 buf with
    | none => none
    | some (v, rem) => some (v, [], rem)
  | 1 =>
    match consumeFixed 8 buf with
    | none => none
    | some (v, rem) => some (v, [], rem)
  | 2 =>
    match decodeBytesField buf with
    | none => none
    | some (s, rem) => some (0, s.data, rem)
  | _ => none

mutual
/-- Go `decoder.putvalue`: write one broken-out payload into a destination
of kind `k` whose current value is `cur`.  `none` is a decoding error.
The fuel only limits recursion through pointers and nested messages
(each strictly shrinks the remaining buffer, so a fuel linear in the
buffer length always suffices); every fuel-exhaustion `none` is
unreachable under the fuel bounds the theorems use. -/
def putvalue (fuel : Nat) (k : Kind) (cur : Value) (wt : Nat) (v : Nat)
    (vb : List Nat) : Option Value :=
  match fuel, k with
  | _, .kBool =>
    if wt ≠ 0 then none
    else if 1 < v then none
    else some (.vBool (v ≠ 0))
  | _, .kInt =>
    match decodeSignedInt wt v with
    | none => none
    | some i => some (.vInt i)
  | _, .kUInt =>
    match wt with
    | 0 => some (.vUInt v)
    | 5 => some (.vUInt (v % 2 ^ 32))
    | 1 => some (.vUInt v)
    | _ => none
  | _, .kBytes =>
    if wt ≠ 2 then none else some (.vBytes vb)
  | _, .kStr =>
    if wt ≠ 2 then none else some (.vStr vb)
  | 0, .kPtr _ => none
  | fuel + 1, .kPtr k1 =>
    let cur1 := match cur with
      | .vPtrSome x => x
      | _ => zeroV k1
    match putvalue fuel k1 cur1 wt v vb with
    | none => none
    | some x => some (.vPtrSome x)
  | 0, .kMsg _ => none
  | fuel + 1, .kMsg fs =>
    if wt ≠ 2 then none
    else
      match decLoop fuel fs 0 (zeroM fs) vb with
      | none => none
      | some m => some (.vMsg m)

/-- Go `decoder.message`'s record loop: parse a tag, advance the cursor,
break out the payload per wire type, and either write it into the matched
field or discard it (unknown field number).  `fuel ≥ 2 * buf.length + 4`
always suffices, since every fuel unit spent crosses a tag, a length
prefix or a loop iteration, each backed by input bytes. -/
def decLoop (fuel : Nat) (fs : MsgKind) (fieldi : Nat) (vals : MsgVal)
    (buf : List Nat) : Option MsgVal :=
  match fuel with
  | 0 => none
  | fuel + 1 =>
    match buf with
    | [] => some vals
    | _ :: _ =>
      match consumeTag buf with
      | none => none
      | some (num, wt, rest) =>
        let i := advance fs fieldi num
        match decPayload wt rest with
        | none => none
        | some (v, vb, rem) =>
          match fs.nth i with
          | some (n, k) =>
            if n = num then
              match vals.get i with
              | some cur =>
                match putvalue fuel k cur wt v vb with
                | none => none
                | some newv => decLoop fuel fs i (vals.set i newv) rem
              | none => none
            else decLoop fuel fs i vals rem
          | none => decLoop fuel fs i vals rem
end

/-- Go `decoder.message` on a zeroed destination, with sufficient fuel
(each unit of fuel spent moves past at least half a byte of input). -/
def decMessage (fs : MsgKind) (buf : List Nat) : Option MsgVal :=
  decLoop (2 * buf.length + 4) fs 0 (zeroM fs) buf

/-- The public `Decode` restricted to the supported universe: decode `buf` into a
fresh (zero) struct of kind `fs`.  `none` is a returned error. -/
def Decode (fs : MsgKind) (buf : List Nat) : Option MsgVal := decMessage fs buf

/-! ### Round-trip machinery -/

/-- The numeric payload the decoder's wire-type switch hands to
`putvalue` for this value's encoding (0 for length-delimited). -/
def pv : Value → Nat
  | .vBool b => if b then 1 else 0
  | .vInt i => toU64 i
  | .vUInt n => n
  | .vPtrSome v => pv v
  | _ => 0

/-- The byte payload the decoder hands to `putvalue` for this value's
encoding (empty for numeric wire types). -/
def pvb : Value → List Nat
  | .vBytes bs => bs
  | .vStr bs => bs
  | .vMsg m => encMsgV m
  | .vPtrSome v => pvb v
  | _ => []

/-- Number of pointer layers around a value. -/
def ptrDepth : Value → Nat
  | .vPtrSome v => ptrDepth v + 1
  | _ => 0

/-- A kind whose values are pointers. -/
def isPtrK : Kind → Bool
  | .kPtr _ => true
  | _ => false

/-- Round-trip statement at the single-value level: `putvalue` on the
broken-out encoding of `v`, into the zero value of its kind, yields `v`. -/
def RTput (v : Value) : Prop :=
  ∀ k fuel, typedV k v = true → wfKind k = true → encOkV v = true →
    isNilish v = false →
    2 * (encPayload v).length + 4 + ptrDepth v ≤ fuel →
    putvalue fuel k (zeroV k) (wireOf v) (pv v) (pvb v) = some v

/-- Round-trip statement at the loop level: running the decode loop over
the encoding of the still-zero suffix fields (with the cursor anywhere at
or before them) fills in exactly those fields. -/
def RTloop (m : MsgVal) : Prop :=
  ∀ (todoK doneK : MsgKind) (doneV : MsgVal) (c fuel : Nat),
    typedM todoK m = true → wfFields todoK = true → encOkM m = true →
    ascFrom 0 (doneK.app todoK) = true → numsBelow (doneK.app todoK) = true →
    c ≤ doneK.size → doneV.size = doneK.size →
    2 * (encMsgV m).length + 4 ≤ fuel →
    decLoop fuel (doneK.app todoK) c (doneV.app (zeroM todoK)) (encMsgV m) =
      some (doneV.app m)

/-- Round-trip witness layout: bool, int, bytes, string, optional int and
a nested message. -/
def rtK : MsgKind :=
  .mcons 1 .kBool (.mcons 2 .kInt (.mcons 3 .kBytes (.mcons 4 .kStr
    (.mcons 5 (.kPtr .kInt) (.mcons 6 (.kMsg (.mcons 1 .kInt .mnil)) .mnil)))))

/-- Round-trip witness value for `rtK`. -/
def rtV : MsgVal :=
  .vcons 1 (.vBool true) (.vcons 2 (.vInt (-149)) (.vcons 3 (.vBytes [7, 8, 9])
    (.vcons 4 (.vStr [97, 98]) (.vcons 5 (.vPtrSome (.vInt 5))
      (.vcons 6 (.vMsg (.vcons 1 (.vInt (-1)) .vnil)) .vnil)))))

/-- The field layout of the round-trip counterexample: two fields with
explicit tag overrides `5` and `2`, so the resolved entry list is not in
ascending field-number order (the resolver accepts this — the numbers are
distinct). -/
def c1K : MsgKind := .mcons 5 .kUInt (.mcons 2 .kUInt .mnil)

/-- The counterexample value: field 5 holds 3, field 2 holds 1. -/
def c1V : MsgVal := .vcons 5 (.vUInt 3) (.vcons 2 (.vUInt 1) .vnil)

/-- The second counterexample layout: a single pointer-to-pointer
(`**int64`) field — field numbers trivially ascending. -/
def c1K2 : MsgKind := .mcons 1 (.kPtr (.kPtr .kInt)) .mnil

/-- The second counterexample value: the outer pointer is set, the inner
pointer is nil.  `encoder.value`'s `reflect.Ptr` case recurses through
the non-nil outer pointer and then emits nothing for the nil pointee, so
this value is indistinguishable on the wire from an entirely unset
field. -/
def c1V2 : MsgVal := .vcons 1 (.vPtrSome .vPtrNone) .vnil

/-- A well-formed wire payload, one constructor per wire type the
decoder's consumption switch understands. -/
inductive Payload where
  | pvarint (u : Nat)
  | pfix32 (u : Nat)
  | pfix64 (u : Nat)
  | pbytes (bs : List Nat)
deriving DecidableEq, Repr

/-- Wire type of a payload. -/
def payloadWt : Payload → Nat
  | .pvarint _ => 0
  | .pfix32 _ => 5
  | .pfix64 _ => 1
  | .pbytes _ => 2

/-- Wire bytes of a payload. -/
def payloadBytes : Payload → List Nat
  | .pvarint u => uvarint u
  | .pfix32 u => leBytes 4 u
  | .pfix64 u => leBytes 8 u
  | .pbytes bs => uvarint bs.length ++ bs

/-- Value-range side conditions making the payload well-formed. -/
def payloadOk : Payload → Bool
  | .pvarint u => decide (u < 2 ^ 64)
  | .pfix32 u => decide (u < 2 ^ 32)
  | .pfix64 u => decide (u < 2 ^ 64)
  | .pbytes bs => decide (bs.length < 2 ^ 64)

/-- One well-formed wire record: tag followed by payload. -/
def mkRecord (num : Nat) (p : Payload) : List Nat :=
  keyTag num (payloadWt p) ++ payloadBytes p

/-- The two-field type with both tags forced to 1
(`TestDuplicateIDNotAllowed`). -/
def dupT : GoType := .strukt (.fcons 1 "" false .prim (.fcons 1 "" false .prim .fnil))

/-- Type `TestNestedInner`: `{A int32; B int32 tag 10; C int32 tag-named
"renamed"}`. -/
def innerT : GoType :=
  .strukt (.fcons 0 "" false .prim (.fcons 10 "" false .prim
    (.fcons 0 "renamed" false .prim .fnil)))

/-- Type `TestNestedOuter`: `{A int32; *TestNestedInner embedded}`. -/
def outerT : GoType := .strukt (.fcons 0 "" false .prim (.fcons 0 "" true (.ptr innerT) .fnil))

/-! ## Abstract (interface) fields and the Type Registry

The registry implementation file is not part of the sources here (only
the encoder/decoder interface cases and the test exports reference it).
-/

/-- Modelled from the spec: the Type Registry (`generators`) maps an
8-byte Type Tag to a zero-argument factory; here only tag membership
matters ("a factory is registered for this tag").  `get` on the default
(empty) registry finds nothing. -/
def Registry := List (List Nat)

/-- Modelled from the spec: registry lookup succeeds exactly for
registered tags. -/
def regHas (reg : Registry) (id : List Nat) : Bool := reg.contains id

/-- Modelled from the spec: the default registry is empty. -/
def emptyRegistry : Registry := []

/-- Go `encoder.value`, `reflect.Interface` case: the concrete value
self-marshals to `selfBytes`; `mid` is its `MarshalID` when it implements
`InterfaceMarshaler`.  The 8-byte tag is prepended — and counted in the
length prefix — only when a generator is registered for it. -/
def encodeInterfaceField (reg : Registry) (num : Nat) (selfBytes : List Nat)
    (mid : Option (List Nat)) : List Nat :=
  let tagged : Option (List Nat) :=
    match mid with
    | some id => if regHas reg id then some id else none
    | none => none
  match tagged with
  | some id =>
    keyTag num 2 ++ uvarint (selfBytes.length + id.length) ++ id ++ selfBytes
  | none => keyTag num 2 ++ uvarint selfBytes.length ++ selfBytes

/-- Go `decoder.putvalue`, `reflect.Interface` case, for a nil destination:
when the payload is strictly longer than a tag, its first 8 bytes are
looked up in the registry; on a hit the tag is stripped and the factory
instantiates the value.  Otherwise `decoder.instantiate` falls back to
the caller's constructor table, and with no constructor it panics
"no constructor for interface".  Returns the data handed to
`UnmarshalBinary`, and whether the registry path was taken. -/
def decodeInterfaceNil (reg : Registry) (hasConstructor : Bool)
    (vb : List Nat) : Except String (List Nat × Bool) :=
  if 8 < vb.length ∧ regHas reg (vb.take 8) then .ok (vb.drop 8, true)
  else if hasConstructor then .ok (vb, false)
  else .error "no constructor for interface"

/-- The 8-byte ASCII tag "aaaaaaaa" (`dummyStruct.MarshalID`). -/
def tagA : List Nat := [97, 97, 97, 97, 97, 97, 97, 97]

/-! ## Nil top-level arguments -/

/-- The caller-supplied constructor table, keyed by abstract type
identity; only its presence matters to the nil-argument contract. -/
def ConsTable := List (List Nat)

/-- Top-level `Encode`: a nil argument returns `(nil, nil)` before the
self-marshal check, the pointer check, or any field resolution. -/
def EncodeTop (arg : Option MsgVal) : Except String (List Nat) :=
  match arg with
  | none => .ok []
  | some m => .ok (encMsgV m)

/-- Top-level `DecodeWithConstructors`: a nil destination returns a nil
error immediately, before the buffer is touched; `Decode` is the same
with an empty table. -/
def DecodeWithConsTop (buf : List Nat) (dest : Option MsgKind) (cons : ConsTable) :
    Except String (Option MsgVal) :=
  match dest with
  | none => .ok none
  | some fs =>
    match decMessage fs buf with
    | some m => .ok (some m)
    | none => .error "failed to decode the field"

/-- Top-level `Decode`. -/
def DecodeTop (buf : List Nat) (dest : Option MsgKind) : Except String (Option MsgVal) :=
  DecodeWithConsTop buf dest []

/-! ## Theorems -/

/-! ## Round-trip facts about the wire primitives -/

theorem uvarintF_agree : ∀ f g v, v ≤ f → v ≤ g → uvarintF f v = uvarintF g v := by
  intro f
  induction f with
  | zero =>
    intro g v hf _
    interval_cases v
    cases g with
    | zero => rfl
    | succ g => simp [uvarintF]
  | succ f ih =>
    intro g v hf hg
    cases g with
    | zero =>
      interval_cases v
      simp [uvarintF]
    | succ g =>
      by_cases h : v < 128
      · simp [uvarintF, h]
      · have hdiv : v / 128 < v := Nat.div_lt_self (by omega) (by omega)
        simp only [uvarintF, if_neg h]
        rw [ih g (v / 128) (by omega) (by omega)]

/-- Unfolding equation for `uvarint` that hides the fuel. -/
theorem uvarint_eq (v : Nat) :
    uvarint v = if v < 128 then [v] else (v % 128 + 128) :: uvarint (v / 128) := by
  by_cases h : v < 128
  · cases v with
    | zero => simp [uvarint, uvarintF]
    | succ v' => simp [uvarint, uvarintF, h]
  · cases v with
    | zero => omega
    | succ v' =>
      have hdiv : v' + 1 ≥ 128 := by omega
      simp only [uvarint, uvarintF, if_neg h]
      have : v' + 1 ≥ 1 := by omega
      rw [uvarintF_agree v' ((v' + 1) / 128) ((v' + 1) / 128)
        (by have := Nat.div_lt_self (by omega : 0 < v' + 1) (by omega : 1 < 128); omega)
        (Nat.le_refl _)]

theorem uvarint_length_pos (v : Nat) : 1 ≤ (uvarint v).length := by
  rw [uvarint_eq]
  split <;> simp

theorem cvAux_uvarint : ∀ r v acc mult rest, 1 ≤ r → v < 2 ^ (7 * r - 6) →
    cvAux r mult acc (uvarint v ++ rest) = some (acc + v * mult, rest) := by
  intro r
  induction r with
  | zero => omega
  | succ r ih =>
    intro v acc mult rest _ hv
    rw [uvarint_eq]
    by_cases h : v < 128
    · simp only [if_pos h, List.cons_append, cvAux, if_pos h]
      by_cases hr : r = 0
      · subst hr
        have : v < 2 := by simpa using hv
        have : ¬ (1 < v) := by omega
        simp [this]
      · have : ¬ (r + 1 ≤ 1) := by omega
        simp [this]
    · simp only [if_neg h, List.cons_append, cvAux]
      have hb : ¬ (v % 128 + 128 < 128) := by omega
      have hr : 1 ≤ r := by
        rcases Nat.eq_zero_or_pos r with h0 | h1
        · subst h0
          have : v < 2 := by simpa using hv
          omega
        · exact h1
      have hrle : ¬ (r + 1 ≤ 1) := by omega
      simp only [if_neg hb, if_neg hrle]
      have hdiv : v / 128 < 2 ^ (7 * r - 6) := by
        have h1 : v < 2 ^ (7 * (r + 1) - 6) := hv
        have h2 : 7 * (r + 1) - 6 = (7 * r - 6) + 7 := by omega
        rw [h2, pow_add] at h1
        have := Nat.div_lt_of_lt_mul (by omega : v < 2 ^ (7 * r - 6) * 128)
        omega
      rw [Nat.add_sub_cancel, ih (v / 128) (acc + (v % 128 + 128 - 128) * mult)
        (mult * 128) rest hr hdiv]
      congr 2
      have h3 : v % 128 + 128 - 128 = v % 128 := by omega
      rw [h3]
      conv_rhs => rw [← Nat.div_add_mod v 128]
      ring

theorem consumeVarint_uvarint (v : Nat) (rest : List Nat) (hv : v < 2 ^ 64) :
    consumeVarint (uvarint v ++ rest) = some (v, rest) := by
  have := cvAux_uvarint 10 v 0 1 rest (by omega) (by norm_num; omega)
  simpa [consumeVarint] using this

theorem leBytes_length (k v : Nat) : (leBytes k v).length = k := by
  induction k generalizing v with
  | zero => rfl
  | succ k ih => simp [leBytes, ih]

theorem leVal_leBytes (k v : Nat) : leVal (leBytes k v) = v % 256 ^ k := by
  induction k generalizing v with
  | zero => simp [leBytes, leVal, Nat.mod_one]
  | succ k ih =>
    simp only [leBytes, leVal, ih]
    have h1 : 256 ^ (k + 1) = 256 * 256 ^ k := by ring
    rw [h1, Nat.mod_mul]

theorem consumeFixed_leBytes (k v : Nat) (rest : List Nat) (hv : v < 256 ^ k) :
    consumeFixed k (leBytes k v ++ rest) = some (v, rest) := by
  have hlen : (leBytes k v).length = k := leBytes_length k v
  have htake : (leBytes k v ++ rest).take k = leBytes k v := by
    have h := List.take_left (leBytes k v) rest
    rwa [hlen] at h
  have hdrop : (leBytes k v ++ rest).drop k = rest := by
    have h := List.drop_left (leBytes k v) rest
    rwa [hlen] at h
  simp only [consumeFixed, List.length_append, hlen]
  rw [if_pos (by omega), htake, hdrop, leVal_leBytes, Nat.mod_eq_of_lt hv]

theorem consumeTag_keyTag (num wt : Nat) (rest : List Nat)
    (hnum : 1 ≤ num) (hlt : num < 2 ^ 29) (hwt : wt < 8) :
    consumeTag (keyTag num wt ++ rest) = some (num, wt, rest) := by
  have hbound : num * 8 + wt < 2 ^ 64 := by
    norm_num at hlt ⊢
    omega
  simp only [consumeTag, keyTag, consumeVarint_uvarint _ _ hbound]
  have hdiv : (num * 8 + wt) / 8 = num := by omega
  have hmod : (num * 8 + wt) % 8 = wt := by omega
  have hsmall : num % 2 ^ 32 = num := by
    norm_num at hlt ⊢
    omega
  rw [hdiv, hmod, hsmall, if_neg (by push_neg; norm_num at hlt ⊢; omega)]

theorem consumeBytesS_enc (pl rest : List Nat) (hlen : pl.length < 2 ^ 64) :
    consumeBytesS (uvarint pl.length ++ (pl ++ rest)) =
      some (⟨pl, pl.length + rest.length⟩, rest) := by
  simp only [consumeBytesS, consumeVarint_uvarint _ _ hlen]
  have htake : (pl ++ rest).take pl.length = pl := List.take_left pl rest
  have hdrop : (pl ++ rest).drop pl.length = rest := List.drop_left pl rest
  rw [if_pos (by simp), htake, hdrop]
  simp

theorem decodeBytesField_enc (pl rest : List Nat) (hlen : pl.length < 2 ^ 64) :
    decodeBytesField (uvarint pl.length ++ (pl ++ rest)) =
      some (⟨pl, pl.length⟩, rest) := by
  simp [decodeBytesField, consumeBytesS_enc pl rest hlen, resliceFull]

theorem toU64_lt (i : Int) : toU64 i < 2 ^ 64 := by
  have h : (0 : Int) < 2 ^ 64 := by positivity
  have := Int.emod_lt_of_pos i h
  have h2 := Int.emod_nonneg i (by positivity : (2 ^ 64 : Int) ≠ 0)
  simp only [toU64]
  omega

theorem wireOf_cases : (v : Value) → wireOf v = 0 ∨ wireOf v = 2
  | .vBool _ => Or.inl rfl
  | .vInt _ => Or.inl rfl
  | .vUInt _ => Or.inl rfl
  | .vBytes _ => Or.inr rfl
  | .vStr _ => Or.inr rfl
  | .vPtrNone => Or.inl rfl
  | .vPtrSome v => by simpa [wireOf] using wireOf_cases v
  | .vMsg _ => Or.inr rfl

theorem encPayload_length_pos : (v : Value) → isNilish v = false →
    1 ≤ (encPayload v).length
  | .vBool b, _ => by simp [encPayload, uvarint_length_pos]
  | .vInt i, _ => by simp [encPayload, uvarint_length_pos]
  | .vUInt n, _ => by simp [encPayload, uvarint_length_pos]
  | .vBytes bs, _ => by
    simp only [encPayload, List.length_append]
    have := uvarint_length_pos bs.length
    omega
  | .vStr bs, _ => by
    simp only [encPayload, List.length_append]
    have := uvarint_length_pos bs.length
    omega
  | .vPtrNone, hnil => by simp [isNilish] at hnil
  | .vPtrSome v, hnil => by
    simp only [isNilish] at hnil
    simpa [encPayload] using encPayload_length_pos v hnil
  | .vMsg m, _ => by
    simp only [encPayload, List.length_append]
    have := uvarint_length_pos (encMsgV m).length
    omega

theorem MsgKind.size_appK : ∀ a b : MsgKind, (a.app b).size = a.size + b.size
  | .mnil, b => by simp [MsgKind.app, MsgKind.size]
  | .mcons n k r, b => by
    simp only [MsgKind.app, MsgKind.size, MsgKind.size_appK r b]
    omega

theorem MsgKind.app_assocK : ∀ a b c : MsgKind, (a.app b).app c = a.app (b.app c)
  | .mnil, _, _ => rfl
  | .mcons n k r, b, c => by
    simp only [MsgKind.app, MsgKind.app_assocK r b c]

theorem MsgKind.nth_app_size : ∀ (a : MsgKind) (num : Nat) (k : Kind) (b : MsgKind),
    (a.app (MsgKind.mcons num k b)).nth a.size = some (num, k)
  | .mnil, num, k, b => rfl
  | .mcons n' k' r, num, k, b => by
    simpa [MsgKind.app, MsgKind.size, MsgKind.nth] using MsgKind.nth_app_size r num k b

theorem MsgKind.nth_lt_size : ∀ (fs : MsgKind) (i : Nat) (p : Nat × Kind),
    fs.nth i = some p → i < fs.size
  | .mnil, i, p, h => by simp [MsgKind.nth] at h
  | .mcons n k r, 0, p, _ => by simp [MsgKind.size]
  | .mcons n k r, i + 1, p, h => by
    have := MsgKind.nth_lt_size r i p h
    simp [MsgKind.size]
    omega

theorem MsgKind.nth_some_of_lt : ∀ (fs : MsgKind) (i : Nat),
    i < fs.size → ∃ p, fs.nth i = some p
  | .mnil, i, h => by simp [MsgKind.size] at h
  | .mcons n k r, 0, _ => ⟨(n, k), rfl⟩
  | .mcons n k r, i + 1, h => by
    have hr : i < r.size := by simpa [MsgKind.size] using h
    simpa [MsgKind.nth] using MsgKind.nth_some_of_lt r i hr

theorem MsgVal.size_appV : ∀ a b : MsgVal, (a.app b).size = a.size + b.size
  | .vnil, b => by simp [MsgVal.app, MsgVal.size]
  | .vcons n v r, b => by
    simp only [MsgVal.app, MsgVal.size, MsgVal.size_appV r b]
    omega

theorem MsgVal.app_assocV : ∀ a b c : MsgVal, (a.app b).app c = a.app (b.app c)
  | .vnil, _, _ => rfl
  | .vcons n v r, b, c => by
    simp only [MsgVal.app, MsgVal.app_assocV r b c]

theorem MsgVal.get_app_size : ∀ (a : MsgVal) (i : Nat), i = a.size →
    ∀ (num : Nat) (v : Value) (b : MsgVal),
    (a.app (MsgVal.vcons num v b)).get i = some v
  | .vnil, i, hi, num, v, b => by subst hi; rfl
  | .vcons n' v' r, i, hi, num, v, b => by
    subst hi
    simpa [MsgVal.app, MsgVal.size, MsgVal.get] using
      MsgVal.get_app_size r r.size rfl num v b

theorem MsgVal.set_app_size : ∀ (a : MsgVal) (i : Nat), i = a.size →
    ∀ (num : Nat) (v x : Value) (b : MsgVal),
    (a.app (MsgVal.vcons num v b)).set i x = a.app (MsgVal.vcons num x b)
  | .vnil, i, hi, num, v, x, b => by subst hi; rfl
  | .vcons n' v' r, i, hi, num, v, x, b => by
    subst hi
    simpa [MsgVal.app, MsgVal.size, MsgVal.set] using
      MsgVal.set_app_size r r.size rfl num v x b

theorem zeroM_size : ∀ fs : MsgKind, (zeroM fs).size = fs.size
  | .mnil => rfl
  | .mcons n k r => by simp [zeroM, MsgVal.size, MsgKind.size, zeroM_size r]

/-- Field numbers of the concatenation. -/
theorem numsOf_app : ∀ a b : MsgKind, numsOf (a.app b) = numsOf a ++ numsOf b
  | .mnil, b => rfl
  | .mcons n k r, b => by simp [MsgKind.app, numsOf, numsOf_app r b]

theorem ascFrom_nth_gt : ∀ (fs : MsgKind) (lo i : Nat) (p : Nat × Kind),
    ascFrom lo fs = true → fs.nth i = some p → lo < p.1
  | .mnil, lo, i, p, _, h => by simp [MsgKind.nth] at h
  | .mcons n k r, lo, 0, p, hasc, h => by
    simp only [MsgKind.nth, Option.some.injEq] at h
    simp only [ascFrom, Bool.and_eq_true, decide_eq_true_eq] at hasc
    subst h
    exact hasc.1
  | .mcons n k r, lo, i + 1, p, hasc, h => by
    simp only [MsgKind.nth] at h
    simp only [ascFrom, Bool.and_eq_true, decide_eq_true_eq] at hasc
    have := ascFrom_nth_gt r n i p hasc.2 h
    omega

theorem ascFrom_mono : ∀ (fs : MsgKind) (lo a b : Nat) (pa pb : Nat × Kind),
    ascFrom lo fs = true → a < b → fs.nth a = some pa → fs.nth b = some pb →
    pa.1 < pb.1
  | .mnil, _, _, _, _, _, _, _, ha, _ => by simp [MsgKind.nth] at ha
  | .mcons n k r, lo, 0, b, pa, pb, hasc, hab, ha, hb => by
    obtain ⟨b', rfl⟩ : ∃ b', b = b' + 1 := ⟨b - 1, by omega⟩
    simp only [MsgKind.nth, Option.some.injEq] at ha hb
    simp only [ascFrom, Bool.and_eq_true, decide_eq_true_eq] at hasc
    subst ha
    exact ascFrom_nth_gt r n b' pb hasc.2 hb
  | .mcons n k r, lo, a + 1, b, pa, pb, hasc, hab, ha, hb => by
    obtain ⟨b', rfl⟩ : ∃ b', b = b' + 1 := ⟨b - 1, by omega⟩
    simp only [MsgKind.nth] at ha hb
    simp only [ascFrom, Bool.and_eq_true, decide_eq_true_eq] at hasc
    exact ascFrom_mono r n a b' pa pb hasc.2 (by omega) ha hb

/-- With strictly ascending field numbers, the cursor advance from any
position at or before the matching entry stops exactly at that entry. -/
theorem advanceF_exact : ∀ (fuel : Nat) (fs : MsgKind) (c j num : Nat) (k : Kind),
    ascFrom 0 fs = true → fs.nth j = some (num, k) → c ≤ j → j - c ≤ fuel →
    advanceF fuel fs c num = j := by
  intro fuel
  induction fuel with
  | zero =>
    intro fs c j num k _ _ hcj hfuel
    have : c = j := by omega
    simp [advanceF, this]
  | succ fuel ih =>
    intro fs c j num k hasc hj hcj hfuel
    rcases Nat.eq_or_lt_of_le hcj with heq | hlt
    · subst heq
      simp only [advanceF, hj]
      rw [if_neg (by omega)]
    · obtain ⟨p, hp⟩ := MsgKind.nth_some_of_lt fs c
        (lt_of_lt_of_le hlt (Nat.le_of_lt (MsgKind.nth_lt_size fs j _ hj)))
      have hlt2 : p.1 < num := ascFrom_mono fs 0 c j p (num, k) hasc hlt hp hj
      simp only [advanceF, hp]
      rw [if_pos hlt2]
      exact ih fs (c + 1) j num k hasc hj (by omega) (by omega)

theorem advance_exact (fs : MsgKind) (c j num : Nat) (k : Kind)
    (hasc : ascFrom 0 fs = true) (hj : fs.nth j = some (num, k)) (hcj : c ≤ j) :
    advance fs c num = j := by
  have hjs := MsgKind.nth_lt_size fs j _ hj
  exact advanceF_exact fs.size fs c j num k hasc hj hcj (by omega)

theorem nth_mem_numsOf : ∀ (fs : MsgKind) (i : Nat) (p : Nat × Kind),
    fs.nth i = some p → p.1 ∈ numsOf fs
  | .mnil, i, p, h => by simp [MsgKind.nth] at h
  | .mcons n k r, 0, p, h => by
    simp only [MsgKind.nth, Option.some.injEq] at h
    subst h
    simp [numsOf]
  | .mcons n k r, i + 1, p, h => by
    simp only [MsgKind.nth] at h
    simp only [numsOf, List.mem_cons]
    exact Or.inr (nth_mem_numsOf r i p h)

theorem numsBelow_nth (fs : MsgKind) (i : Nat) (p : Nat × Kind)
    (hb : numsBelow fs = true) (h : fs.nth i = some p) : p.1 < 2 ^ 29 := by
  have hm := nth_mem_numsOf fs i p h
  simp only [numsBelow, List.all_eq_true, decide_eq_true_eq] at hb
  exact hb _ hm

theorem depth_zero (k : Kind) (v : Value) (h : typedV k v = true)
    (hk : isPtrK k = false) : ptrDepth v = 0 := by
  cases k <;> cases v <;> simp_all [typedV, isPtrK, ptrDepth]

theorem ptrDepth_le_one (k : Kind) (v : Value) (hwf : wfKind k = true)
    (h : typedV k v = true) : ptrDepth v ≤ 1 := by
  cases k with
  | kPtr k1 =>
    cases v with
    | vPtrNone => simp [ptrDepth]
    | vPtrSome v1 =>
      have h1 : typedV k1 v1 = true := by simpa [typedV] using h
      have hk1 : isPtrK k1 = false := by
        cases k1 <;> simp_all [wfKind, isPtrK]
      have := depth_zero k1 v1 h1 hk1
      simp [ptrDepth, this]
    | vBool b => simp [typedV] at h
    | vInt i => simp [typedV] at h
    | vUInt n => simp [typedV] at h
    | vBytes bs => simp [typedV] at h
    | vStr bs => simp [typedV] at h
    | vMsg m => simp [typedV] at h
  | kBool => rw [depth_zero _ _ h (by simp [isPtrK])]; omega
  | kInt => rw [depth_zero _ _ h (by simp [isPtrK])]; omega
  | kUInt => rw [depth_zero _ _ h (by simp [isPtrK])]; omega
  | kBytes => rw [depth_zero _ _ h (by simp [isPtrK])]; omega
  | kStr => rw [depth_zero _ _ h (by simp [isPtrK])]; omega
  | kMsg fs => rw [depth_zero _ _ h (by simp [isPtrK])]; omega

/-- Decoding the wire payload of one encoded supported value breaks out
exactly the numeric/byte payload `putvalue` expects, leaving the tail. -/
theorem decPayload_enc : ∀ (v : Value) (k : Kind) (rest : List Nat),
    typedV k v = true → encOkV v = true → isNilish v = false →
    decPayload (wireOf v) (encPayload v ++ rest) = some (pv v, pvb v, rest)
  | .vBool b, k, rest, _, _, _ => by
    have hb : (if b then 1 else 0) < 2 ^ 64 := by cases b <;> norm_num
    simp [decPayload, wireOf, encPayload, pv, pvb,
      consumeVarint_uvarint _ rest hb]
  | .vInt i, k, rest, _, _, _ => by
    simp [decPayload, wireOf, encPayload, pv, pvb,
      consumeVarint_uvarint _ rest (toU64_lt i)]
  | .vUInt n, k, rest, ht, _, _ => by
    have hb : n < 2 ^ 64 := by
      cases k <;> simp_all [typedV]
    simp [decPayload, wireOf, encPayload, pv, pvb, consumeVarint_uvarint _ rest hb]
  | .vBytes bs, k, rest, ht, _, _ => by
    have hb : bs.length < 2 ^ 64 := by
      cases k <;> simp_all [typedV]
    simp only [decPayload, wireOf, encPayload, pv, pvb, List.append_assoc]
    rw [decodeBytesField_enc bs rest hb]
  | .vStr bs, k, rest, ht, _, _ => by
    have hb : bs.length < 2 ^ 64 := by
      cases k <;> simp_all [typedV]
    simp only [decPayload, wireOf, encPayload, pv, pvb, List.append_assoc]
    rw [decodeBytesField_enc bs rest hb]
  | .vPtrNone, k, rest, _, _, hnil => by simp [isNilish] at hnil
  | .vPtrSome v1, k, rest, ht, hok, hnil => by
    obtain ⟨k1, rfl⟩ : ∃ k1, k = .kPtr k1 := by
      cases k <;> simp_all [typedV]
    have ht1 : typedV k1 v1 = true := by simpa [typedV] using ht
    have hok1 : encOkV v1 = true := by simpa [encOkV] using hok
    have hnil1 : isNilish v1 = false := by simpa [isNilish] using hnil
    simpa [wireOf, encPayload, pv, pvb] using decPayload_enc v1 k1 rest ht1 hok1 hnil1
  | .vMsg m, k, rest, _, hok, _ => by
    have hb : (encMsgV m).length < 2 ^ 64 := by
      simp only [encOkV, Bool.and_eq_true, decide_eq_true_eq] at hok
      exact hok.1
    simp only [decPayload, wireOf, encPayload, pv, pvb, List.append_assoc]
    rw [decodeBytesField_enc (encMsgV m) rest hb]

/-- One iteration of the decode loop on a record whose field number
matches the entry the cursor advances to. -/
theorem decLoop_step_match (f : Nat) (fs : MsgKind) (i : Nat) (vals : MsgVal)
    (buf : List Nat) (num wt : Nat) (rest : List Nat) (v : Nat) (vb rem : List Nat)
    (n : Nat) (k : Kind) (cur newv : Value)
    (h1 : consumeTag buf = some (num, wt, rest))
    (h2 : decPayload wt rest = some (v, vb, rem))
    (h3 : fs.nth (advance fs i num) = some (n, k)) (h4 : n = num)
    (h5 : vals.get (advance fs i num) = some cur)
    (h6 : putvalue f k cur wt v vb = some newv) :
    decLoop (f + 1) fs i vals buf =
      decLoop f fs (advance fs i num) (vals.set (advance fs i num) newv) rem := by
  cases buf with
  | nil => simp [consumeTag, consumeVarint, cvAux] at h1
  | cons b bs =>
    subst h4
    simp only [decLoop, h1, h2, h3, h5, h6, eq_self_iff_true, if_true]

/-- One iteration of the decode loop on a record whose field number does
not match the entry the cursor lands on (unknown field: payload is
consumed and discarded, state unchanged). -/
theorem decLoop_step_skip (f : Nat) (fs : MsgKind) (i : Nat) (vals : MsgVal)
    (buf : List Nat) (num wt : Nat) (rest : List Nat) (v : Nat) (vb rem : List Nat)
    (h1 : consumeTag buf = some (num, wt, rest))
    (h2 : decPayload wt rest = some (v, vb, rem))
    (h3 : ∀ n k, fs.nth (advance fs i num) = some (n, k) → n ≠ num) :
    decLoop (f + 1) fs i vals buf = decLoop f fs (advance fs i num) vals rem := by
  cases buf with
  | nil => simp [consumeTag, consumeVarint, cvAux] at h1
  | cons b bs =>
    cases h : fs.nth (advance fs i num) with
    | none => simp only [decLoop, h1, h2, h]
    | some p =>
      obtain ⟨n, k⟩ := p
      have := h3 n k h
      simp only [decLoop, h1, h2, h, if_neg this]

theorem typedM_cons (n : Nat) (k : Kind) (kr : MsgKind) (n' : Nat) (v : Value)
    (vr : MsgVal) (h : typedM (.mcons n k kr) (.vcons n' v vr) = true) :
    n = n' ∧ typedV k v = true ∧ typedM kr vr = true := by
  simpa [typedM, Bool.and_eq_true, decide_eq_true_eq, and_assoc] using h

theorem wfKind_ptr (k1 : Kind) (h : wfKind (.kPtr k1) = true) :
    isPtrK k1 = false ∧ wfKind k1 = true := by
  cases k1 <;> simp_all [wfKind, isPtrK]

theorem wfKind_msg (fs : MsgKind) (h : wfKind (.kMsg fs) = true) :
    ascFrom 0 fs = true ∧ numsBelow fs = true ∧ wfFields fs = true := by
  simpa [wfKind, Bool.and_eq_true, and_assoc] using h

/-- A typed value of a well-formed kind that encodes to nothing is
exactly an unset pointer — the kind's zero value. -/
theorem nilish_typed (k : Kind) (v : Value) (hwf : wfKind k = true)
    (ht : typedV k v = true) (hnil : isNilish v = true) :
    v = .vPtrNone ∧ zeroV k = .vPtrNone := by
  cases k with
  | kPtr k1 =>
    cases v with
    | vPtrNone => exact ⟨rfl, rfl⟩
    | vPtrSome v1 =>
      have h1 : typedV k1 v1 = true := by simpa [typedV] using ht
      have hn1 : isNilish v1 = true := by simpa [isNilish] using hnil
      have hk1 : isPtrK k1 = false := (wfKind_ptr k1 hwf).1
      exfalso
      cases k1 <;> cases v1 <;> simp_all [typedV, isNilish, isPtrK]
    | vBool b => simp [typedV] at ht
    | vInt i => simp [typedV] at ht
    | vUInt n => simp [typedV] at ht
    | vBytes bs => simp [typedV] at ht
    | vStr bs => simp [typedV] at ht
    | vMsg m => simp [typedV] at ht
  | kBool => cases v <;> simp_all [typedV, isNilish]
  | kInt => cases v <;> simp_all [typedV, isNilish]
  | kUInt => cases v <;> simp_all [typedV, isNilish]
  | kBytes => cases v <;> simp_all [typedV, isNilish]
  | kStr => cases v <;> simp_all [typedV, isNilish]
  | kMsg fs => cases v <;> simp_all [typedV, isNilish]

/-- Fact `int64(uint64(i)) = i`: decoding the encoder's two's-complement
varint pattern recovers the signed value (no zigzag anywhere). -/
theorem sExt64_toU64 (i : Int) (h1 : -(2 ^ 63) ≤ i) (h2 : i < 2 ^ 63) :
    sExt 64 (toU64 i) = i := by
  simp only [sExt, toU64]
  have ha : 0 ≤ i % 2 ^ 64 := Int.emod_nonneg i (by norm_num)
  have hb : i % 2 ^ 64 < 2 ^ 64 := Int.emod_lt_of_pos i (by norm_num)
  split <;> omega

theorem rt_strong : ∀ N : Nat,
    (∀ v : Value, sizeOf v < N → RTput v) ∧ (∀ m : MsgVal, sizeOf m < N → RTloop m) := by
  intro N
  induction N with
  | zero => exact ⟨fun v h => absurd h (by omega), fun m h => absurd h (by omega)⟩
  | succ N ih =>
    obtain ⟨ihV, ihM⟩ := ih
    constructor
    · intro v hsize k fuel ht hwf hok hnil hfuel
      cases v with
      | vBool b =>
        cases k <;> simp [typedV] at ht
        cases b <;> simp [putvalue, zeroV, wireOf, pv, pvb]
      | vInt i =>
        cases k <;> simp [typedV] at ht
        simp [putvalue, decodeSignedInt, zeroV, wireOf, pv, pvb,
          sExt64_toU64 i ht.1 ht.2]
      | vUInt n =>
        cases k <;> simp [typedV] at ht
        simp [putvalue, zeroV, wireOf, pv, pvb]
      | vBytes bs =>
        cases k <;> simp [typedV] at ht
        simp [putvalue, zeroV, wireOf, pv, pvb]
      | vStr bs =>
        cases k <;> simp [typedV] at ht
        simp [putvalue, zeroV, wireOf, pv, pvb]
      | vPtrNone => simp [isNilish] at hnil
      | vPtrSome v1 =>
        cases k <;> simp [typedV] at ht
        case kPtr k1 =>
        obtain ⟨hk1, hwf1⟩ := wfKind_ptr k1 hwf
        have hok1 : encOkV v1 = true := by simpa [encOkV] using hok
        have hnil1 : isNilish v1 = false := by simpa [isNilish] using hnil
        have hs1 : sizeOf v1 < N := by
          have := Value.vPtrSome.sizeOf_spec v1
          omega
        have hdep : ptrDepth v1 = 0 := depth_zero k1 v1 ht hk1
        cases fuel with
        | zero => omega
        | succ f =>
          have hrec := ihV v1 hs1 k1 f ht hwf1 hok1 hnil1 (by
            simp only [encPayload, ptrDepth] at hfuel
            omega)
          simp only [putvalue, zeroV, wireOf, encPayload, pv, pvb]
          rw [hrec]
      | vMsg m =>
        cases k <;> simp [typedV] at ht
        case kMsg fs1 =>
        obtain ⟨hasc1, hbel1, hwfF1⟩ := wfKind_msg fs1 hwf
        have hokm : (encMsgV m).length < 2 ^ 64 ∧ encOkM m = true := by
          simpa [encOkV, Bool.and_eq_true, decide_eq_true_eq] using hok
        have hs1 : sizeOf m < N := by
          have := Value.vMsg.sizeOf_spec m
          omega
        cases fuel with
        | zero => omega
        | succ f =>
          have hloop := ihM m hs1 fs1 .mnil .vnil 0 f ht hwfF1 hokm.2
            hasc1 hbel1 (Nat.le_refl 0) rfl (by
              simp only [encPayload, List.length_append, ptrDepth] at hfuel
              have := uvarint_length_pos (encMsgV m).length
              omega)
          simp only [MsgKind.app, MsgVal.app] at hloop
          simp only [putvalue, zeroV, wireOf, pv, pvb, ne_eq,
            not_true_eq_false, if_false]
          rw [hloop]
    · intro m hsize todoK doneK doneV c fuel ht hwfF hok hasc hbel hc hsz hfuel
      cases m with
      | vnil =>
        have h0 : todoK = .mnil := by
          cases todoK with
          | mnil => rfl
          | mcons a b r => simp [typedM] at ht
        subst h0
        cases fuel with
        | zero => simp only [encMsgV, List.length_nil] at hfuel; omega
        | succ f => simp [decLoop, encMsgV, zeroM]
      | vcons num v vr =>
        cases todoK with
        | mnil => simp [typedM] at ht
        | mcons num2 k kr =>
          obtain ⟨hnum, htv, htr⟩ := typedM_cons num2 k kr num v vr ht
          have hnum2 : num = num2 := hnum.symm
          subst hnum2
          obtain ⟨hwfk, hwfr⟩ : wfKind k = true ∧ wfFields kr = true := by
            simpa [wfFields, Bool.and_eq_true] using hwfF
          obtain ⟨hokv, hokr⟩ : encOkV v = true ∧ encOkM vr = true := by
            simpa [encOkM, Bool.and_eq_true] using hok
          have hsr : sizeOf vr < N := by
            have := MsgVal.vcons.sizeOf_spec num v vr
            omega
          have hsv : sizeOf v < N := by
            have := MsgVal.vcons.sizeOf_spec num v vr
            omega
          have hkassoc : doneK.app (.mcons num k kr) =
              (doneK.app (.mcons num k .mnil)).app kr := by
            rw [MsgKind.app_assocK]
            rfl
          have hsizek : (doneK.app (.mcons num k .mnil)).size = doneK.size + 1 := by
            rw [MsgKind.size_appK]
            rfl
          by_cases hnil : isNilish v = true
          · obtain ⟨hv, hz⟩ := nilish_typed k v hwfk htv hnil
            subst hv
            have he : encMsgV (.vcons num .vPtrNone vr) = encMsgV vr := by
              simp [encMsgV, isNilish]
            rw [he] at hfuel ⊢
            have hzM : doneV.app (zeroM (.mcons num k kr)) =
                (doneV.app (.vcons num .vPtrNone .vnil)).app (zeroM kr) := by
              rw [MsgVal.app_assocV]
              show doneV.app (zeroM (.mcons num k kr)) =
                doneV.app (.vcons num .vPtrNone (zeroM kr))
              rw [show zeroM (.mcons num k kr) = .vcons num (zeroV k) (zeroM kr) from rfl, hz]
            have hres : doneV.app (.vcons num .vPtrNone vr) =
                (doneV.app (.vcons num .vPtrNone .vnil)).app vr := by
              rw [MsgVal.app_assocV]
              rfl
            rw [hzM, hres, hkassoc]
            exact ihM vr hsr kr (doneK.app (.mcons num k .mnil))
              (doneV.app (.vcons num .vPtrNone .vnil)) c fuel htr hwfr hokr
              (by rw [MsgKind.app_assocK]; exact hasc)
              (by rw [MsgKind.app_assocK]; exact hbel)
              (by rw [hsizek]; omega)
              (by rw [MsgVal.size_appV, hsizek]
                  simp only [MsgVal.size]
                  omega)
              hfuel
          · replace hnil : isNilish v = false := by
              simpa using hnil
            have hnth : (doneK.app (.mcons num k kr)).nth doneK.size = some (num, k) :=
              MsgKind.nth_app_size doneK num k kr
            have hnumpos : 0 < num :=
              ascFrom_nth_gt (doneK.app (.mcons num k kr)) 0 doneK.size (num, k) hasc hnth
            have hnumlt : num < 2 ^ 29 :=
              numsBelow_nth (doneK.app (.mcons num k kr)) doneK.size (num, k) hbel hnth
            have hwtlt : wireOf v < 8 := by
              rcases wireOf_cases v with h | h <;> omega
            have htag := consumeTag_keyTag num (wireOf v) (encPayload v ++ encMsgV vr)
              hnumpos hnumlt hwtlt
            have hbuf : encMsgV (.vcons num v vr) =
                keyTag num (wireOf v) ++ (encPayload v ++ encMsgV vr) := by
              simp [encMsgV, hnil, List.append_assoc]
            have hadv : advance (doneK.app (.mcons num k kr)) c num = doneK.size :=
              advance_exact _ c doneK.size num k hasc hnth (by omega)
            have hpay := decPayload_enc v k (encMsgV vr) htv hokv hnil
            have hlenp : 1 ≤ (encPayload v).length := encPayload_length_pos v hnil
            have hlent : 1 ≤ (keyTag num (wireOf v)).length := uvarint_length_pos _
            cases fuel with
            | zero => omega
            | succ f =>
              have hdep : ptrDepth v ≤ 1 := ptrDepth_le_one k v hwfk htv
              have hput := ihV v hsv k f htv hwfk hokv hnil (by
                rw [hbuf] at hfuel
                simp only [List.length_append] at hfuel
                omega)
              have hget : (doneV.app (zeroM (.mcons num k kr))).get doneK.size =
                  some (zeroV k) := by
                rw [show zeroM (.mcons num k kr) = .vcons num (zeroV k) (zeroM kr) from rfl]
                exact MsgVal.get_app_size doneV doneK.size hsz.symm num (zeroV k) (zeroM kr)
              have hset : (doneV.app (zeroM (.mcons num k kr))).set doneK.size v =
                  doneV.app (.vcons num v (zeroM kr)) := by
                rw [show zeroM (.mcons num k kr) = .vcons num (zeroV k) (zeroM kr) from rfl]
                exact MsgVal.set_app_size doneV doneK.size hsz.symm num (zeroV k) v (zeroM kr)
              rw [hbuf]
              rw [decLoop_step_match f (doneK.app (.mcons num k kr)) c
                (doneV.app (zeroM (.mcons num k kr)))
                (keyTag num (wireOf v) ++ (encPayload v ++ encMsgV vr))
                num (wireOf v) (encPayload v ++ encMsgV vr) (pv v) (pvb v) (encMsgV vr)
                num k (zeroV k) v htag hpay (by rw [hadv]; exact hnth) rfl
                (by rw [hadv]; exact hget) hput]
              rw [hadv, hset]
              have hres : doneV.app (.vcons num v vr) =
                  (doneV.app (.vcons num v .vnil)).app vr := by
                rw [MsgVal.app_assocV]
                rfl
              have hvals : doneV.app (.vcons num v (zeroM kr)) =
                  (doneV.app (.vcons num v .vnil)).app (zeroM kr) := by
                rw [MsgVal.app_assocV]
                rfl
              rw [hres, hvals, hkassoc]
              exact ihM vr hsr kr (doneK.app (.mcons num k .mnil))
                (doneV.app (.vcons num v .vnil)) doneK.size f htr hwfr hokr
                (by rw [MsgKind.app_assocK]; exact hasc)
                (by rw [MsgKind.app_assocK]; exact hbel)
                (by rw [hsizek]; omega)
                (by rw [MsgVal.size_appV, hsizek]
                    simp only [MsgVal.size]
                    omega)
                (by rw [hbuf] at hfuel
                    simp only [List.length_append] at hfuel
                    omega)

/-- C1 as stated fails on the code in two independent ways.  First, for
a supported two-field aggregate whose resolved field numbers are out of
order (explicit tags 5 then 2), the encoder emits field 5's record
first, the decoder's monotone cursor then refuses to come back for
field 2, and the round trip loses it.  Second, even with ascending
numbers, a pointer-to-pointer field whose outer pointer is set but whose
inner pointer is nil encodes to nothing (the encoder's `reflect.Ptr`
case emits nothing for the nil pointee), so decoding returns the field
fully unset rather than set-to-nil. -/
theorem c1_counterexample :
    (ProtoFields (.strukt (.fcons 5 "" false .prim (.fcons 2 "" false .prim .fnil))) =
      some [⟨5, "", [0]⟩, ⟨2, "", [1]⟩] ∧
      typedM c1K c1V = true ∧ numsBelow c1K = true ∧ wfFields c1K = true ∧
      encOkM c1V = true ∧
      Decode c1K (Encode c1V) = some (.vcons 5 (.vUInt 3) (.vcons 2 (.vUInt 0) .vnil)) ∧
      Decode c1K (Encode c1V) ≠ some c1V) ∧
    (typedM c1K2 c1V2 = true ∧ ascFrom 0 c1K2 = true ∧ numsBelow c1K2 = true ∧
      encOkM c1V2 = true ∧
      Encode c1V2 = [] ∧
      Decode c1K2 (Encode c1V2) = some (.vcons 1 .vPtrNone .vnil) ∧
      Decode c1K2 (Encode c1V2) ≠ some c1V2) := by
  refine ⟨⟨by decide, by decide, by decide, by decide, by decide, by decide, by decide⟩,
    by decide, by decide, by decide, by decide, by decide, by decide, by decide⟩

/-- C1 (amended): for every supported aggregate value whose type's
resolved field numbers are valid and strictly ascending in declaration
order and which contains no pointer-to-pointer (doubly-optional) field,
at any nesting depth — together exactly `wfMsg` — decoding the encoding
into a zero value of the same type succeeds and returns the value
field-for-field. -/
theorem c1_roundtrip (fs : MsgKind) (m : MsgVal) (hwf : wfMsg fs = true)
    (ht : typedM fs m = true) (hok : encOkM m = true) :
    Decode fs (Encode m) = some m := by
  obtain ⟨hasc, hbel, hwfF⟩ : ascFrom 0 fs = true ∧ numsBelow fs = true ∧
      wfFields fs = true := by
    simpa [wfMsg, Bool.and_eq_true, and_assoc] using hwf
  have h := (rt_strong (sizeOf m + 1)).2 m (by omega) fs .mnil .vnil 0
    (2 * (encMsgV m).length + 4) ht hwfF hok hasc hbel (Nat.le_refl 0) rfl
    (Nat.le_refl _)
  simpa [Decode, decMessage, Encode, MsgKind.app, MsgVal.app] using h

/-- Concrete instance of the amended round trip: a six-field aggregate
exercising bool, negative int, bytes, string, optional and nested
message fields. -/
theorem c1_roundtrip_witness :
    wfMsg rtK = true ∧ typedM rtK rtV = true ∧ encOkM rtV = true ∧
      Decode rtK (Encode rtV) = some rtV :=
  ⟨by decide, by decide, by decide, c1_roundtrip rtK rtV (by decide) (by decide) (by decide)⟩

/-- C2: an aggregate whose single field is an unsigned integer valued 150
encodes to exactly `08 96 01`: tag byte `0x08` (field 1, varint wire
type) followed by the two-byte varint of 150. -/
theorem c2_uint150_encodes_089601 :
    keyTag 1 0 = [0x08] ∧ uvarint 150 = [0x96, 0x01] ∧
      Encode (.vcons 1 (.vUInt 150) .vnil) = [0x08, 0x96, 0x01] := by
  refine ⟨by decide, by decide, by decide⟩

/-- C5: signed integer fields use the plain two's-complement-as-unsigned
varint convention, not zigzag — a non-negative value encodes as itself, a
negative value as `value + 2^64`; the decoder accepts varint, fixed32 and
fixed64 wire types for a signed destination, reinterpreting the bits as
signed, with a fixed32 payload sign-extended from 32 to 64 bits
(`2^31 ≤ v < 2^32` becomes `v - 2^32`); decoding inverts encoding on the
whole `int64` range; and any other wire type is rejected. -/
theorem c5_signed_wire_convention :
    (∀ (i : Int) (num : Nat), 0 ≤ i → i < 2 ^ 63 →
      encValue num (.vInt i) = keyTag num 0 ++ uvarint i.toNat) ∧
    (∀ (i : Int) (num : Nat), -(2 ^ 63) ≤ i → i < 0 →
      encValue num (.vInt i) = keyTag num 0 ++ uvarint (i + 2 ^ 64).toNat) ∧
    (∀ (fuel v : Nat) (cur : Value) (vb : List Nat),
      putvalue fuel .kInt cur 0 v vb = some (.vInt (sExt 64 v)) ∧
      putvalue fuel .kInt cur 1 v vb = some (.vInt (sExt 64 v)) ∧
      putvalue fuel .kInt cur 5 v vb = some (.vInt (sExt 32 v)) ∧
      putvalue fuel .kInt cur 2 v vb = none) ∧
    (∀ v : Nat, v < 2 ^ 32 →
      sExt 32 v = if v < 2 ^ 31 then (v : Int) else (v : Int) - 2 ^ 32) ∧
    (∀ i : Int, -(2 ^ 63) ≤ i → i < 2 ^ 63 → sExt 64 (toU64 i) = i) := by
  refine ⟨?_, ?_, ?_, ?_, fun i h1 h2 => sExt64_toU64 i h1 h2⟩
  · intro i num _ _
    have : toU64 i = i.toNat := by
      simp only [toU64]
      omega
    simp [encValue, isNilish, wireOf, encPayload, this]
  · intro i num h1 h2
    have : toU64 i = (i + 2 ^ 64).toNat := by
      simp only [toU64]
      omega
    simp [encValue, isNilish, wireOf, encPayload, this]
  · intro fuel v cur vb
    cases fuel <;>
      exact ⟨rfl, rfl, rfl, rfl⟩
  · intro v hv
    have h1 : v % 2 ^ 32 = v := Nat.mod_eq_of_lt hv
    simp only [sExt, h1]

/-- Concrete instance of the signed wire convention at `i = -149` (the
value in the repository's own round-trip test) and a fixed32 payload with
the sign bit set. -/
theorem c5_witness :
    encValue 1 (.vInt (-149)) = keyTag 1 0 ++ uvarint (((-149 : Int) + 2 ^ 64).toNat) ∧
      putvalue 0 .kInt (zeroV .kInt) 5 4294967147 [] = some (.vInt (-149)) ∧
      sExt 64 (toU64 (-149)) = -149 := by
  refine ⟨c5_signed_wire_convention.2.1 (-149) 1 (by decide) (by decide), ?_, ?_⟩
  · have h := (c5_signed_wire_convention.2.2.1 0 4294967147 (zeroV .kInt) []).2.2.1
    rw [h]
    have h2 := c5_signed_wire_convention.2.2.2.1 4294967147 (by norm_num)
    rw [h2]
    norm_num
  · exact c5_signed_wire_convention.2.2.2.2 (-149) (by decide) (by decide)

theorem payloadWt_lt (p : Payload) : payloadWt p < 8 := by
  cases p <;> simp [payloadWt]

/-- The per-wire-type consumption logic consumes exactly a well-formed
payload's bytes, whatever its wire type. -/
theorem decPayload_payloadBytes (p : Payload) (rest : List Nat)
    (hok : payloadOk p = true) :
    ∃ v vb, decPayload (payloadWt p) (payloadBytes p ++ rest) = some (v, vb, rest) := by
  cases p with
  | pvarint u =>
    simp only [payloadOk, decide_eq_true_eq] at hok
    exact ⟨u, [], by simp [decPayload, payloadWt, payloadBytes,
      consumeVarint_uvarint u rest hok]⟩
  | pfix32 u =>
    simp only [payloadOk, decide_eq_true_eq] at hok
    refine ⟨u, [], ?_⟩
    have h : u < 256 ^ 4 := by norm_num at hok ⊢; omega
    simp [decPayload, payloadWt, payloadBytes, consumeFixed_leBytes 4 u rest h]
  | pfix64 u =>
    simp only [payloadOk, decide_eq_true_eq] at hok
    refine ⟨u, [], ?_⟩
    have h : u < 256 ^ 8 := by norm_num at hok ⊢; omega
    simp [decPayload, payloadWt, payloadBytes, consumeFixed_leBytes 8 u rest h]
  | pbytes bs =>
    simp only [payloadOk, decide_eq_true_eq] at hok
    exact ⟨0, bs, by simp [decPayload, payloadWt, payloadBytes, List.append_assoc,
      decodeBytesField_enc bs rest hok]⟩

/-- The cursor does not move when the entry it points at already has a
field number at or above the record's. -/
theorem advance_stay (fs : MsgKind) (c num nc : Nat) (kc : Kind)
    (hnth : fs.nth c = some (nc, kc)) (hge : ¬ nc < num) :
    advance fs c num = c := by
  have hlt := MsgKind.nth_lt_size fs c _ hnth
  unfold advance
  cases hs : fs.size with
  | zero => omega
  | succ s => simp [advanceF, hnth, hge]

/-- C6: a well-formed record whose field number matches no destination
field is parsed and discarded by the same per-wire-type consumption
logic, produces no error, and leaves every decoded field unaffected:
the loop continues on the remaining bytes with the same values. -/
theorem c6_unknown_field_skipped (num : Nat) (p : Payload) (fs : MsgKind)
    (c : Nat) (vals : MsgVal) (rest : List Nat) (fuel : Nat)
    (hpos : 1 ≤ num) (hlt : num < 2 ^ 29) (hok : payloadOk p = true)
    (hunk : num ∉ numsOf fs) :
    decLoop (fuel + 1) fs c vals (mkRecord num p ++ rest) =
      decLoop fuel fs (advance fs c num) vals rest := by
  obtain ⟨v, vb, hpay⟩ := decPayload_payloadBytes p rest hok
  have hwt := payloadWt_lt p
  have htag := consumeTag_keyTag num (payloadWt p) (payloadBytes p ++ rest)
    hpos hlt hwt
  rw [show mkRecord num p ++ rest = keyTag num (payloadWt p) ++ (payloadBytes p ++ rest)
    from by simp [mkRecord, List.append_assoc]]
  exact decLoop_step_skip fuel fs c vals _ num (payloadWt p) _ v vb rest htag hpay
    (fun n k hn => by
      have := nth_mem_numsOf fs _ _ hn
      intro he
      exact hunk (he ▸ this))

/-- Concrete C6 instance: a record for field 3 decoded against a
single-field (field 1) struct is discarded and decoding continues. -/
theorem c6_witness :
    decLoop 1 (.mcons 1 .kUInt .mnil) 0 (zeroM (.mcons 1 .kUInt .mnil))
        (mkRecord 3 (.pvarint 7) ++ []) =
      decLoop 0 (.mcons 1 .kUInt .mnil) (advance (.mcons 1 .kUInt .mnil) 0 3)
        (zeroM (.mcons 1 .kUInt .mnil)) [] :=
  c6_unknown_field_skipped 3 (.pvarint 7) (.mcons 1 .kUInt .mnil) 0
    (zeroM (.mcons 1 .kUInt .mnil)) [] 0 (by decide) (by decide) (by decide)
    (by decide)

/-- C7: once the cursor has advanced past a field number (because an
earlier record carried a larger one), a later record with that smaller
number is treated as unknown — its payload is consumed and discarded and
no destination is written — even though an entry with exactly that
number exists earlier in the field list. -/
theorem c7_cursor_discards_smaller (fs : MsgKind) (c num j nc : Nat)
    (kc kj : Kind) (p : Payload) (vals : MsgVal) (rest : List Nat) (fuel : Nat)
    (hcursor : fs.nth c = some (nc, kc)) (hpast : num < nc)
    (hdest : fs.nth j = some (num, kj)) (hj : j < c)
    (hpos : 1 ≤ num) (hlt : num < 2 ^ 29) (hok : payloadOk p = true) :
    decLoop (fuel + 1) fs c vals (mkRecord num p ++ rest) =
      decLoop fuel fs c vals rest := by
  obtain ⟨v, vb, hpay⟩ := decPayload_payloadBytes p rest hok
  have hwt := payloadWt_lt p
  have htag := consumeTag_keyTag num (payloadWt p) (payloadBytes p ++ rest)
    hpos hlt hwt
  have hadv : advance fs c num = c := advance_stay fs c num nc kc hcursor (by omega)
  rw [show mkRecord num p ++ rest = keyTag num (payloadWt p) ++ (payloadBytes p ++ rest)
    from by simp [mkRecord, List.append_assoc]]
  have h := decLoop_step_skip fuel fs c vals _ num (payloadWt p) _ v vb rest htag hpay
    (fun n k hn => by
      rw [hadv, hcursor] at hn
      intro he
      obtain ⟨rfl, rfl⟩ : nc = n ∧ kc = k := by
        simpa [Prod.ext_iff] using hn
      omega)
  rwa [hadv] at h

/-- Concrete C7 instance: fields 1 and 2, cursor already at entry 2; a
record for field 1 is discarded although field 1 exists. -/
theorem c7_witness :
    decLoop 1 (.mcons 1 .kUInt (.mcons 2 .kUInt .mnil)) 1
        (zeroM (.mcons 1 .kUInt (.mcons 2 .kUInt .mnil)))
        (mkRecord 1 (.pvarint 9) ++ []) =
      decLoop 0 (.mcons 1 .kUInt (.mcons 2 .kUInt .mnil)) 1
        (zeroM (.mcons 1 .kUInt (.mcons 2 .kUInt .mnil))) [] :=
  c7_cursor_discards_smaller (.mcons 1 .kUInt (.mcons 2 .kUInt .mnil)) 1 1 0 2
    .kUInt .kUInt (.pvarint 9) (zeroM (.mcons 1 .kUInt (.mcons 2 .kUInt .mnil)))
    [] 0 (by decide) (by decide) (by decide) (by decide) (by decide) (by decide)
    (by decide)

/-- C3: whenever the resolved entry list of a type (flattened embedded
members included) repeats a field number, `ProtoFields` fails fatally
(the duplicate scan panics) — and, being a pure function of the type, it
fails the same way on every resolution attempt.  The Go panic fires
before the result is cached, so no call ever sees a cached value for
such a type. -/
theorem c3_duplicate_number_fatal (t : GoType) (idEnd : Nat)
    (entries : List PField)
    (hres : innerFieldIndexes 0 t = some (idEnd, entries))
    (hdup : hasDup (entries.map (·.id)) = true) :
    ProtoFields t = none := by
  simp [ProtoFields, hres, hdup]

/-- Concrete C3 instance: the duplicate-tag type from the repository's
own test resolves to `none` (panic). -/
theorem c3_witness : ProtoFields dupT = none :=
  c3_duplicate_number_fatal dupT 1 [⟨1, "", [0]⟩, ⟨1, "", [1]⟩] (by decide) (by decide)

/-- C4: an anonymous/embedded member is flattened with the running
counter rolled back by one before recursing (so the embedded type's
default numbering continues from the parent's current position) and with
the embedding member's access step prepended to every inner entry's
path; on the `{A; *Inner}`/`{A; B tag 10; C}` example this resolves to
entries `(1,[0]) (2,[1,0]) (10,[1,1]) (11,[1,2])`. -/
theorem c4_embedded_flattening :
    (∀ (id i tid : Nat) (nm : String) (t : GoType) (rest : GoFields)
        (id3 id4 : Nat) (inner out : List PField),
      innerFieldIndexes ((if tid ≠ 0 then tid else id + 1) - 1) t = some (id3, inner) →
      fieldWalk id3 (i + 1) rest = some (id4, out) →
      fieldWalk id i (.fcons tid nm true t rest) =
        some (id4, inner.map (prependIdx i) ++ out)) ∧
    ProtoFields outerT =
      some [⟨1, "", [0]⟩, ⟨2, "", [1, 0]⟩, ⟨10, "", [1, 1]⟩, ⟨11, "renamed", [1, 2]⟩] := by
  constructor
  · intro id i tid nm t rest id3 id4 inner out h1 h2
    have h1x : innerFieldIndexes ((if tid = 0 then id + 1 else tid) - 1) t =
        some (id3, inner) := by
      simpa [ite_not] using h1
    simp [fieldWalk, h1x, h2]
  · decide

/-- Concrete instance of the flattening equation: resolving the outer
type's anonymous `*Inner` member at counter position 1 prepends `1` to
the inner entries resolved from rolled-back counter 1. -/
theorem c4_witness :
    fieldWalk 1 1 (.fcons 0 "" true (.ptr innerT) .fnil) =
      some (11, [⟨2, "", [1, 0]⟩, ⟨10, "", [1, 1]⟩, ⟨11, "renamed", [1, 2]⟩]) := by
  have h := c4_embedded_flattening.1 1 1 0 "" (.ptr innerT) .fnil 11 11
    [⟨2, "", [0]⟩, ⟨10, "", [1]⟩, ⟨11, "renamed", [2]⟩] [] (by decide) (by decide)
  simpa [prependIdx] using h

/-- C8: with tag "aaaaaaaa" registered, an abstract field whose value
self-marshals to `01 02 03` encodes as a length-delimited field of
length 11 — the 8 tag bytes prepended to the 3 payload bytes (wire bytes
`0a 0b 61×8 01 02 03`, as in the repository's interface test); decoding
that same 11-byte payload into a fresh (nil) abstract destination with
an empty registry and no constructor-table entry fails with the
"no constructor" error. -/
theorem c8_type_tag_scenario :
    encodeInterfaceField [tagA] 1 [1, 2, 3] (some tagA) =
      [0x0a, 0x0b, 97, 97, 97, 97, 97, 97, 97, 97, 1, 2, 3] ∧
    decodeInterfaceNil emptyRegistry false (tagA ++ [1, 2, 3]) =
      .error "no constructor for interface" := by
  refine ⟨by decide, ?_⟩
  rw [show decodeInterfaceNil emptyRegistry false (tagA ++ [1, 2, 3]) =
    .error "no constructor for interface" from rfl]

/-! ## Byte-slice capacity clamping -/

/-- C9: every length-delimited payload broken out for a byte-sequence
destination goes through the three-index reslice, so the stored slice's
capacity equals its length exactly — a Go `append` to it can never write
into the shared backing array behind an adjacent field's bytes. -/
theorem c9_bytes_capacity_clamped (buf : List Nat) (s : BSlice) (rem : List Nat)
    (h : decodeBytesField buf = some (s, rem)) :
    s.cap = s.data.length ∧ appendShares s = false := by
  simp only [decodeBytesField] at h
  rcases h1 : consumeBytesS buf with _ | ⟨s0, rem0⟩
  · rw [h1] at h
    simp at h
  · rw [h1] at h
    simp only [Option.some.injEq, Prod.ext_iff] at h
    obtain ⟨hs, _⟩ := h
    subst hs
    simp [resliceFull, appendShares]

/-- Concrete C9 instance: a 3-byte payload with trailing bytes behind it
in the buffer decodes to a slice of length 3 and capacity 3. -/
theorem c9_witness :
    decodeBytesField [3, 7, 8, 9, 255, 255] = some (⟨[7, 8, 9], 3⟩, [255, 255]) ∧
      (⟨[7, 8, 9], 3⟩ : BSlice).cap = ([7, 8, 9] : List Nat).length ∧
      appendShares ⟨[7, 8, 9], 3⟩ = false :=
  ⟨by decide, c9_bytes_capacity_clamped [3, 7, 8, 9, 255, 255] ⟨[7, 8, 9], 3⟩
    [255, 255] (by decide)⟩

/-- C10: both entry points treat a nil top-level argument as a no-op
success: `Encode nil` is a nil byte slice with nil error, and
`Decode`/`DecodeWithConstructors` on a nil destination return a nil
error without consuming any of the buffer, for every buffer and every
constructor table. -/
theorem c10_nil_arguments_noop :
    EncodeTop none = .ok [] ∧
    (∀ (buf : List Nat) (cons : ConsTable),
      DecodeWithConsTop buf none cons = .ok none) ∧
    (∀ buf : List Nat, DecodeTop buf none = .ok none) :=
  ⟨rfl, fun _ _ => rfl, fun _ => rfl⟩

end Protobuf

